import Mathlib

/-!
Shallow embedding of `src/ingestion/data_ingestion.py` (HypixelDataIngestor).

Modelling conventions:
* Instants are `Nat` minutes since an arbitrary epoch; an hour is 60 units
  and a calendar day is 1440 units.  The python code works with pandas
  timestamps at millisecond resolution, but every operation it performs
  (hour flooring via `resample("h")`, date truncation via `.dt.date`) is
  expressible at minute resolution, which the claims need.
* A dataframe row of the hourly series is a pair `(timestamp, value)` with
  `value : Option Nat`; `none` models a pandas `NaN`/`<NA>` entry
  ("no data").  `astype("Int64")` maps `NaN` to `<NA>` and is the identity
  in this model.
* Calendar dates appearing in `datetime.date` arithmetic are `Int` day
  numbers; `civilDay` gives the proleptic-Gregorian day number of a
  calendar date, so `timedelta(days=k)` is `+ k`.
-/

namespace HypIngest

/-- A row of an hourly player-count series: timestamp (minutes) and
`Peak Player Count` (`none` models pandas NaN / "no data"). -/
abbrev Row := Nat × Option Nat

/-- Timestamps of the rows, models the dataframe index after `set_index`. -/
def tsList (rows : List Row) : List Nat := rows.map Prod.fst

/-- `index.min()` (0 on the empty list; only used on nonempty input). -/
def minTs : List Nat → Nat
  | [] => 0
  | t :: ts => ts.foldl min t

/-- `index.max()` (0 on the empty list; only used on nonempty input). -/
def maxTs : List Nat → Nat
  | [] => 0
  | t :: ts => ts.foldl max t

/-- Hour floor of an instant, models flooring to the hourly bin edge. -/
def hourFloor (t : Nat) : Nat := 60 * (t / 60)

/-- Date (day number) of an instant, models `.dt.date` truncation. -/
def dateOf (t : Nat) : Nat := t / 1440

/-- Whether a year is a leap year (proleptic Gregorian). -/
def isLeapYear (y : Nat) : Bool := (y % 4 == 0 && y % 100 != 0) || y % 400 == 0

/-- Length of month `m` of year `y`. -/
def monthLength (y m : Nat) : Nat :=
  if m = 2 then (if isLeapYear y then 29 else 28)
  else if m = 4 ∨ m = 6 ∨ m = 9 ∨ m = 11 then 30 else 31

/-- Proleptic Gregorian day number of the calendar date `y-m-d`
(`datetime.date` arithmetic is exactly arithmetic on this number). -/
def civilDay (y m d : Nat) : Int :=
  ((365 * (y - 1) + (y - 1) / 4 - (y - 1) / 100 + (y - 1) / 400
    + ((List.range (m - 1)).map (fun i => monthLength y (i + 1))).sum + d : Nat) : Int)

/-- The aware UTC `datetime` held in `self.today_datetime`:
its calendar day number plus the UTC hour-of-day and minute. -/
structure UTCDateTime where
  day : Int
  hour : Nat
  minute : Nat

/-- `HypixelDataIngestor.get_most_recent_date` (source lines 40-50):
`today - 2 days` before 01:00 UTC, else `today - 1 day`. -/
def get_most_recent_date (now : UTCDateTime) : Int :=
  if now.hour < 1 then now.day - 2 else now.day - 1

/-- The fetch plan of `get_all_historical_data` (source lines 93-96):
`[start + timedelta(days=i) for i in range((end - start).days + 1)]`. -/
def date_list (start_d end_d : Int) : List Int :=
  (List.range (end_d - start_d + 1).toNat).map (fun (i : Nat) => start_d + (i : Int))

/-- The fetch plan of `get_most_recent_data` (source lines 119-122):
`[latest + timedelta(days=i) for i in range(1, (end - latest).days + 1)]`. -/
def most_recent_date_list (latest end_d : Int) : List Int :=
  (List.range (end_d - latest).toNat).map (fun (i : Nat) => latest + ((i : Int) + 1))

/-- `old_df["Timestamp"].max().date()` (source line 117). -/
def latestDate (B : List Row) : Nat := dateOf (maxTs (tsList B))

/-- Insert an element into a list so that elements with smaller key stay first
(one step of the stable ascending sort performed by `sort_values`). -/
def insertLe (key : α → Nat) (a : α) : List α → List α
  | [] => [a]
  | b :: l => if key a ≤ key b then a :: b :: l else b :: insertLe key a l

/-- `df.sort_values(by=key)`: stable ascending insertion sort. -/
def sortByKey (key : α → Nat) : List α → List α
  | [] => []
  | a :: l => insertLe key a (sortByKey key l)

/-- The arithmetic progression `t0, t0+60, ..., t0+60*(n-1)` of `n` hourly
spaced instants (helper describing hourly index ranges). -/
def genGrid (t0 n : Nat) : List Nat := (List.range n).map (fun i => t0 + 60 * i)

/-- The hourly bin labels produced by `resample("h")` between hour numbers
`lo` and `hi` inclusive: `lo*60, (lo+1)*60, ..., hi*60`. -/
def hourRange (lo hi : Nat) : List Nat := (List.range (hi + 1 - lo)).map (fun i => (lo + i) * 60)

/-- Hourly bin labels spanning the index of `rows` from the floored minimum
to the floored maximum, as `resample("h")` computes them. -/
def gridOf (rows : List Row) : List Nat :=
  hourRange (minTs (tsList rows) / 60) (maxTs (tsList rows) / 60)

/-- `reindex` lookup of label `t`: the value stored at the first row whose
timestamp is exactly `t` (`none` both for a NaN-valued row and for a missing
row, matching the NaN fill of `asfreq`). -/
def valAt (rows : List Row) (t : Nat) : Option Nat :=
  ((rows.filter (fun r => r.1 == t)).head?).bind Prod.snd

/-- `df.set_index("Timestamp").resample("h").asfreq()` (source lines 107 and
134).  Pandas upsampling takes a fast path when the index already has
inferred frequency "h" (which requires at least 3 entries) and the same
length as the bin range: the values are kept and only the index is replaced
by the bin labels.  Otherwise it reindexes onto the bin labels, which raises
(`none` here) when the index has duplicate labels, and fills label `t` with
the value at the unique row timestamped exactly `t`, else NaN. -/
def resampleAsfreq (rows : List Row) : Option (List Row) :=
  if rows.isEmpty then some []
  else if 3 ≤ rows.length ∧ List.Chain' (fun a b => b = a + 60) (tsList rows)
      ∧ rows.length = (gridOf rows).length then
    some ((gridOf rows).zip (rows.map Prod.snd))
  else if (tsList rows).Nodup then
    some ((gridOf rows).map (fun t => (t, valAt rows t)))
  else
    none

/-- The merge performed at the end of `get_all_historical_data` (source
lines 102-108) and `get_most_recent_data` (lines 129-135):
`pd.concat` of the baseline and the fetched daily frames, `sort_values` by
timestamp, then hourly `asfreq` re-gridding; `astype("Int64")` keeps NaN as
`<NA>` and is the identity on the modelled values. -/
def mergeSeries (baseline : List Row) (dailies : List (List Row)) : Option (List Row) :=
  resampleAsfreq (sortByKey Prod.fst (baseline ++ dailies.flatten))

/-- A raw CSV row of a Minetrack daily export: server ip, sample timestamp
and player count. -/
structure RawRow where
  ip : String
  timestamp : Nat
  playerCount : Nat

/-- The fixed target server identity used by the filter on line 69. -/
def hypixelIdent : String := "mc.hypixel.net"

/-- One step of the NaN-skipping running maximum used by pandas `max`. -/
def maxAcc (acc : Option Nat) (v : Nat) : Option Nat :=
  match acc with
  | none => some v
  | some a => some (Nat.max a v)

/-- Maximum of the raw samples falling in the hourly bin labelled `t`
(`none` for an empty bin), as `resample("h").max()` aggregates. -/
def rawBucketMax (samples : List (Nat × Nat)) (t : Nat) : Option Nat :=
  ((samples.filter (fun s => hourFloor s.1 == t)).map Prod.snd).foldl maxAcc none

/-- `df.set_index("timestamp").resample("h").max()` (source line 74):
downsampling aggregation, one output row per hourly bin from the floored
minimum to the floored maximum, NaN (`none`) for bins with no sample. -/
def resampleMax (samples : List (Nat × Nat)) : List Row :=
  if samples.isEmpty then []
  else (hourRange (minTs (samples.map Prod.fst) / 60) (maxTs (samples.map Prod.fst) / 60)).map
    (fun t => (t, rawBucketMax samples t))

/-- The dataframe pipeline inside the `try` of `get_data_for_date` (source
lines 67-82): keep rows with `ip == "mc.hypixel.net"`, drop the ip column,
sort by timestamp, resample hourly keeping the bin maximum, then keep only
the rows whose date equals the requested date `d`. -/
def get_data_rows (d : Nat) (raws : List RawRow) : List Row :=
  (resampleMax (sortByKey Prod.fst
      ((raws.filter (fun r => r.ip == hypixelIdent)).map
        (fun r => (r.timestamp, r.playerCount))))).filter
    (fun r => dateOf r.1 == d)

/-- What pandas sees of the HTTP response body: either a table with the
expected columns (`read_csv` and the column accesses succeed), or content on
which some step of the pipeline raises (malformed CSV, missing columns). -/
inductive ParsedBody where
  | table (rows : List RawRow)
  | malformed

/-- Outcome of `requests.get(url)` (source line 65): a response of any HTTP
status, whose text yields `body`, or a transport-level exception (timeout,
connection error) raised by `requests.get` itself. -/
inductive TransportOutcome where
  | response (body : ParsedBody)
  | connError

/-- Observable result of calling a python function: a returned value or an
uncaught exception escaping the function. -/
inductive PyResult (α : Type) where
  | ret (val : α)
  | raised
deriving DecidableEq

/-- `HypixelDataIngestor.get_data_for_date` (source lines 52-84).  The
`try`/`except` block starts only after `requests.get` has returned, so a
transport-level exception escapes the function, while any exception inside
the dataframe pipeline is caught and turned into `None`. -/
def get_data_for_date (d : Nat) (t : TransportOutcome) : PyResult (Option (List Row)) :=
  match t with
  | .connError => .raised
  | .response .malformed => .ret none
  | .response (.table raws) => .ret (some (get_data_rows d raws))

/-- `gridFrom t rows` holds when the timestamps of `rows` are exactly
`t, t+60, t+120, ...`. -/
def gridFrom : Nat → List Row → Bool
  | _, [] => true
  | t, r :: rs => r.1 == t && gridFrom (t + 60) rs

/-- A nonempty series whose timestamps form a contiguous hour-aligned hourly
grid (the shape of every persisted output series). -/
def isHourlyGrid : List Row → Bool
  | [] => false
  | r :: rs => r.1 % 60 == 0 && gridFrom r.1 (r :: rs)

/-- Maximum of the non-NaN values of the rows of `rows` falling in the
hourly bucket labelled `t` (`none` when no such value exists). -/
def bucketMax (rows : List Row) (t : Nat) : Option Nat :=
  ((rows.filter (fun r => hourFloor r.1 == t)).filterMap Prod.snd).foldl maxAcc none

/-! ### Sorting lemmas -/

theorem perm_insertLe (key : α → Nat) (a : α) (l : List α) :
    List.Perm (insertLe key a l) (a :: l) := by
  induction l with
  | nil => simp [insertLe]
  | cons b l ih =>
    by_cases h : key a ≤ key b
    · simp [insertLe, h]
    · simp only [insertLe, if_neg h]
      exact ((ih.cons b).trans (List.Perm.swap a b l))

theorem perm_sortByKey (key : α → Nat) (l : List α) :
    List.Perm (sortByKey key l) l := by
  induction l with
  | nil => simp [sortByKey]
  | cons a l ih =>
    exact (perm_insertLe key a (sortByKey key l)).trans (ih.cons a)

theorem sortByKey_eq_of_chain (key : α → Nat) (l : List α)
    (h : List.Chain' (fun x y => key x ≤ key y) l) : sortByKey key l = l := by
  induction l with
  | nil => rfl
  | cons a l ih =>
    have hl : List.Chain' (fun x y => key x ≤ key y) l := h.tail
    rw [sortByKey, ih hl]
    cases l with
    | nil => rfl
    | cons b l' =>
      have hab : key a ≤ key b := List.chain'_cons.mp h |>.1
      simp [insertLe, hab]

/-! ### Fold min / max lemmas -/

theorem foldl_min_le_init (l : List Nat) (a : Nat) : l.foldl min a ≤ a := by
  induction l generalizing a with
  | nil => simp
  | cons x l ih => exact le_trans (ih (min a x)) (min_le_left a x)

theorem foldl_min_le_mem (l : List Nat) (a x : Nat) (h : x ∈ l) : l.foldl min a ≤ x := by
  induction l generalizing a with
  | nil => cases h
  | cons y l ih =>
    rcases List.mem_cons.mp h with rfl | hx
    · exact le_trans (foldl_min_le_init l (min a x)) (min_le_right a x)
    · exact ih (Nat.min a y) hx

theorem foldl_min_mem (l : List Nat) (a : Nat) :
    l.foldl min a = a ∨ l.foldl min a ∈ l := by
  induction l generalizing a with
  | nil => exact Or.inl rfl
  | cons x l ih =>
    rcases ih (min a x) with h | h
    · rcases le_total a x with hax | hax
      · exact Or.inl (by rw [List.foldl_cons, h]; omega)
      · refine Or.inr ?_
        rw [List.foldl_cons, h]
        have hx : min a x = x := by omega
        rw [hx]
        exact List.mem_cons_self x l
    · exact Or.inr (List.mem_cons_of_mem x h)

theorem foldl_max_init_le (l : List Nat) (a : Nat) : a ≤ l.foldl max a := by
  induction l generalizing a with
  | nil => simp
  | cons x l ih => exact le_trans (le_max_left a x) (ih (max a x))

theorem foldl_max_mem_le (l : List Nat) (a x : Nat) (h : x ∈ l) : x ≤ l.foldl max a := by
  induction l generalizing a with
  | nil => cases h
  | cons y l ih =>
    rcases List.mem_cons.mp h with rfl | hx
    · exact le_trans (le_max_right a x) (foldl_max_init_le l (max a x))
    · exact ih (Nat.max a y) hx

theorem foldl_max_mem (l : List Nat) (a : Nat) :
    l.foldl max a = a ∨ l.foldl max a ∈ l := by
  induction l generalizing a with
  | nil => exact Or.inl rfl
  | cons x l ih =>
    rcases ih (max a x) with h | h
    · rcases le_total a x with hax | hax
      · refine Or.inr ?_
        rw [List.foldl_cons, h]
        have hx : max a x = x := by omega
        rw [hx]
        exact List.mem_cons_self x l
      · exact Or.inl (by rw [List.foldl_cons, h]; omega)
    · exact Or.inr (List.mem_cons_of_mem x h)

theorem minTs_le {ts : List Nat} {x : Nat} (h : x ∈ ts) : minTs ts ≤ x := by
  cases ts with
  | nil => cases h
  | cons t ts =>
    rcases List.mem_cons.mp h with rfl | hx
    · exact foldl_min_le_init ts x
    · exact foldl_min_le_mem ts t x hx

theorem minTs_mem {ts : List Nat} (h : ts ≠ []) : minTs ts ∈ ts := by
  cases ts with
  | nil => exact absurd rfl h
  | cons t ts =>
    rcases foldl_min_mem ts t with h1 | h1
    · rw [minTs, h1]; exact List.mem_cons_self t ts
    · exact List.mem_cons_of_mem t (by rw [minTs]; exact h1)

theorem le_maxTs {ts : List Nat} {x : Nat} (h : x ∈ ts) : x ≤ maxTs ts := by
  cases ts with
  | nil => cases h
  | cons t ts =>
    rcases List.mem_cons.mp h with rfl | hx
    · exact foldl_max_init_le ts x
    · exact foldl_max_mem_le ts t x hx

theorem maxTs_mem {ts : List Nat} (h : ts ≠ []) : maxTs ts ∈ ts := by
  cases ts with
  | nil => exact absurd rfl h
  | cons t ts =>
    rcases foldl_max_mem ts t with h1 | h1
    · rw [maxTs, h1]; exact List.mem_cons_self t ts
    · exact List.mem_cons_of_mem t (by rw [maxTs]; exact h1)

theorem minTs_eq_of {ts : List Nat} {m : Nat} (hmem : m ∈ ts) (hle : ∀ x ∈ ts, m ≤ x) :
    minTs ts = m :=
  le_antisymm (minTs_le hmem) (hle _ (minTs_mem (List.ne_nil_of_mem hmem)))

theorem maxTs_eq_of {ts : List Nat} {M : Nat} (hmem : M ∈ ts) (hle : ∀ x ∈ ts, x ≤ M) :
    maxTs ts = M :=
  le_antisymm (hle _ (maxTs_mem (List.ne_nil_of_mem hmem))) (le_maxTs hmem)

theorem minTs_perm {ts₁ ts₂ : List Nat} (p : List.Perm ts₁ ts₂) : minTs ts₁ = minTs ts₂ := by
  cases ts₁ with
  | nil => rw [← p.nil_eq]
  | cons t ts =>
    have hne : (t :: ts) ≠ [] := by simp
    have hne₂ : ts₂ ≠ [] := by
      intro h; subst h
      have := p.symm.nil_eq
      simp at this
    exact le_antisymm (minTs_le (p.mem_iff.mpr (minTs_mem hne₂)))
      (minTs_le (p.mem_iff.mp (minTs_mem hne)))

theorem maxTs_perm {ts₁ ts₂ : List Nat} (p : List.Perm ts₁ ts₂) : maxTs ts₁ = maxTs ts₂ := by
  cases ts₁ with
  | nil => rw [← p.nil_eq]
  | cons t ts =>
    have hne : (t :: ts) ≠ [] := by simp
    have hne₂ : ts₂ ≠ [] := by
      intro h; subst h
      have := p.symm.nil_eq
      simp at this
    exact le_antisymm (le_maxTs (p.mem_iff.mp (maxTs_mem hne)))
      (le_maxTs (p.mem_iff.mpr (maxTs_mem hne₂)))

/-! ### Grid lemmas -/

theorem length_tsList (l : List Row) : (tsList l).length = l.length := by
  simp [tsList]

theorem tsList_append (X Y : List Row) : tsList (X ++ Y) = tsList X ++ tsList Y := by
  simp [tsList]

theorem tsList_map_pair (pts : List Nat) (f : Nat → Option Nat) :
    tsList (pts.map (fun u => (u, f u))) = pts := by
  induction pts with
  | nil => rfl
  | cons u pts ih => simp only [tsList, List.map_map] at ih ⊢; simp [ih]

theorem genGrid_length (t0 n : Nat) : (genGrid t0 n).length = n := by simp [genGrid]

theorem genGrid_cons (t0 n : Nat) : genGrid t0 (n + 1) = t0 :: genGrid (t0 + 60) n := by
  unfold genGrid
  rw [List.range_succ_eq_map]
  simp only [List.map_cons, List.map_map, Nat.mul_zero, Nat.add_zero, Function.comp]
  refine congrArg (t0 :: ·) (List.map_congr_left ?_)
  intro a _
  simp only [Function.comp_apply]
  omega

theorem genGrid_mem {x t0 n : Nat} : x ∈ genGrid t0 n ↔ ∃ i, i < n ∧ x = t0 + 60 * i := by
  simp only [genGrid, List.mem_map, List.mem_range]
  constructor
  · rintro ⟨i, hi, rfl⟩; exact ⟨i, hi, rfl⟩
  · rintro ⟨i, hi, rfl⟩; exact ⟨i, hi, rfl⟩

theorem genGrid_nodup (t0 n : Nat) : (genGrid t0 n).Nodup := by
  refine (List.nodup_range n).map ?_
  intro a b h
  dsimp only at h
  omega

theorem genGrid_chain (t0 n : Nat) :
    List.Chain' (fun a b => b = a + 60) (genGrid t0 n) := by
  induction n generalizing t0 with
  | zero => simp [genGrid]
  | succ m ih =>
    rw [genGrid_cons, List.chain'_cons']
    refine ⟨?_, ih (t0 + 60)⟩
    intro b hb
    cases m with
    | zero => simp [genGrid] at hb
    | succ k =>
      rw [genGrid_cons] at hb
      simp only [List.head?_cons, Option.mem_def, Option.some.injEq] at hb
      omega

theorem genGrid_min {t0 n : Nat} (h : 1 ≤ n) : minTs (genGrid t0 n) = t0 := by
  refine minTs_eq_of (genGrid_mem.mpr ⟨0, by omega, by omega⟩) ?_
  intro x hx
  rcases genGrid_mem.mp hx with ⟨i, _, rfl⟩
  omega

theorem genGrid_max {t0 n : Nat} (h : 1 ≤ n) : maxTs (genGrid t0 n) = t0 + 60 * (n - 1) := by
  refine maxTs_eq_of (genGrid_mem.mpr ⟨n - 1, by omega, by omega⟩) ?_
  intro x hx
  rcases genGrid_mem.mp hx with ⟨i, hi, rfl⟩
  omega

theorem hourRange_eq_genGrid (lo hi : Nat) :
    hourRange lo hi = genGrid (60 * lo) (hi + 1 - lo) := by
  unfold hourRange genGrid
  refine List.map_congr_left ?_
  intro a _
  ring

theorem chain_eq_genGrid :
    ∀ (ts : List Nat), List.Chain' (fun a b => b = a + 60) ts →
      ts = genGrid (ts.headD 0) ts.length
  | [], _ => rfl
  | [t], _ => by simp [genGrid, List.range_succ]
  | t :: u :: rest, h => by
    have h1 : u = t + 60 := (List.chain'_cons.mp h).1
    have h2 := chain_eq_genGrid (u :: rest) (List.chain'_cons.mp h).2
    simp only [List.headD_cons, List.length_cons] at h2 ⊢
    rw [genGrid_cons, ← h1, ← h2]

/-! ### Lookup (`valAt`) lemmas -/

theorem valAt_cons_pos {r : Row} {l : List Row} {t : Nat} (h : r.1 = t) :
    valAt (r :: l) t = r.2 := by
  simp [valAt, List.filter_cons, h]

theorem valAt_cons_neg {r : Row} {l : List Row} {t : Nat} (h : r.1 ≠ t) :
    valAt (r :: l) t = valAt l t := by
  simp [valAt, List.filter_cons, h]

theorem valAt_append_left_nil {X Y : List Row} {t : Nat} (h : ∀ r ∈ X, r.1 ≠ t) :
    valAt (X ++ Y) t = valAt Y t := by
  unfold valAt
  rw [List.filter_append, List.filter_eq_nil_iff.mpr (by simpa using h), List.nil_append]

theorem valAt_append_right_nil {X Y : List Row} {t : Nat} (h : ∀ r ∈ Y, r.1 ≠ t) :
    valAt (X ++ Y) t = valAt X t := by
  unfold valAt
  rw [List.filter_append,
    show List.filter (fun r => r.1 == t) Y = [] from List.filter_eq_nil_iff.mpr (by simpa using h),
    List.append_nil]

theorem valAt_some {l : List Row} {t : Nat} {v : Nat} (h : valAt l t = some v) :
    ∃ r ∈ l, r.1 = t ∧ r.2 = some v := by
  unfold valAt at h
  cases hf : l.filter (fun r => r.1 == t) with
  | nil => rw [hf] at h; simp at h
  | cons a as =>
    rw [hf] at h
    simp only [List.head?_cons, Option.some_bind] at h
    have ha : a ∈ l.filter (fun r => r.1 == t) := by rw [hf]; exact List.mem_cons_self a as
    have := List.mem_filter.mp ha
    exact ⟨a, this.1, by simpa using this.2, h⟩

theorem filter_key_len_le_one {l : List Row} (hnd : (tsList l).Nodup) (t : Nat) :
    (l.filter (fun r => r.1 == t)).length ≤ 1 := by
  induction l with
  | nil => simp
  | cons r l ih =>
    have hnd' : (tsList l).Nodup := (List.nodup_cons.mp hnd).2
    have hout : r.1 ∉ tsList l := (List.nodup_cons.mp hnd).1
    by_cases h : r.1 = t
    · rw [List.filter_cons_of_pos (by simpa using h)]
      have hnil : l.filter (fun r => r.1 == t) = [] := by
        refine List.filter_eq_nil_iff.mpr ?_
        intro x hx hxt
        have hx1 : x.1 = t := by simpa using hxt
        exact hout (by rw [h, ← hx1]; exact List.mem_map_of_mem Prod.fst hx)
      rw [hnil]
      simp
    · rw [List.filter_cons_of_neg (by simpa using h)]
      exact ih hnd'

theorem valAt_perm {l₁ l₂ : List Row} (p : List.Perm l₁ l₂) (hnd : (tsList l₁).Nodup)
    (t : Nat) : valAt l₁ t = valAt l₂ t := by
  have pf := p.filter (fun r => r.1 == t)
  have len1 := filter_key_len_le_one hnd t
  unfold valAt
  cases hf : l₁.filter (fun r => r.1 == t) with
  | nil =>
    rw [hf] at pf
    rw [← pf.nil_eq]
  | cons a as =>
    rw [hf] at pf len1
    have : as = [] := by
      cases as with
      | nil => rfl
      | cons b bs => simp at len1
    subst this
    rw [List.perm_singleton.mp pf.symm]

theorem zip_fst_snd : ∀ (l : List (α × β)), (l.map Prod.fst).zip (l.map Prod.snd) = l
  | [] => rfl
  | a :: l => by simp [zip_fst_snd l]

theorem valAt_map_grid {pts : List Nat} {f : Nat → Option Nat} {t : Nat}
    (hnd : pts.Nodup) (ht : t ∈ pts) :
    valAt (pts.map (fun u => (u, f u))) t = f t := by
  induction pts with
  | nil => cases ht
  | cons u pts ih =>
    rcases List.mem_cons.mp ht with rfl | ht'
    · exact valAt_cons_pos rfl
    · have hu : u ≠ t := by
        rintro rfl
        exact (List.nodup_cons.mp hnd).1 ht'
      rw [List.map_cons, valAt_cons_neg (by simpa using hu)]
      exact ih (List.nodup_cons.mp hnd).2 ht'

theorem valAt_grid_get :
    ∀ (l : List Row) (t0 n i : Nat), tsList l = genGrid t0 n → i < n →
      ∀ (h : i < l.length), valAt l (t0 + 60 * i) = (l.get ⟨i, h⟩).2
  | [], _, _, i, _, _, h => by simp at h
  | r :: l, t0, n, i, hts, hi, h => by
    cases n with
    | zero => omega
    | succ m =>
      rw [genGrid_cons] at hts
      simp only [tsList, List.map_cons, List.cons.injEq] at hts
      obtain ⟨hr1, hts'⟩ := hts
      cases i with
      | zero =>
        have : t0 + 60 * 0 = t0 := by omega
        rw [this, valAt_cons_pos hr1]
        rfl
      | succ j =>
        have hne : r.1 ≠ t0 + 60 * (j + 1) := by omega
        rw [valAt_cons_neg hne]
        have heq : t0 + 60 * (j + 1) = (t0 + 60) + 60 * j := by ring
        rw [heq]
        have hj : j < l.length := by simpa using Nat.lt_of_succ_lt_succ h
        rw [valAt_grid_get l (t0 + 60) m j hts' (by omega) hj]
        rfl

/-! ### Characterizations of `resampleAsfreq` -/

theorem genGrid_getElem {t0 n i : Nat} (h : i < (genGrid t0 n).length) :
    (genGrid t0 n)[i] = t0 + 60 * i := by
  simp [genGrid]

theorem gridOf_of_tsGrid {l : List Row} {t0 n : Nat} (hts : tsList l = genGrid t0 n)
    (hal : t0 % 60 = 0) (hn : 1 ≤ n) : gridOf l = genGrid t0 n := by
  unfold gridOf
  rw [hts, genGrid_min hn, genGrid_max hn, hourRange_eq_genGrid]
  have h1 : 60 * (t0 / 60) = t0 := by omega
  have h3 : (t0 + 60 * (n - 1)) / 60 + 1 - t0 / 60 = n := by omega
  rw [h1, h3]

theorem length_of_tsGrid {l : List Row} {t0 n : Nat} (hts : tsList l = genGrid t0 n) :
    l.length = n := by
  have := congrArg List.length hts
  rwa [length_tsList, genGrid_length] at this

theorem tsList_eq (l : List Row) : tsList l = l.map Prod.fst := rfl

theorem map_valAt_grid_eq {l : List Row} {t0 n : Nat} (hts : tsList l = genGrid t0 n) :
    (genGrid t0 n).map (fun t => (t, valAt l t)) = l := by
  have hlen : l.length = n := length_of_tsGrid hts
  refine List.ext_getElem (by simp [genGrid_length, hlen]) ?_
  intro i h1 h2
  have hin : i < n := by simpa [genGrid_length] using h1
  have h3 : i < (tsList l).length := by rw [length_tsList]; exact h2
  have h4 := List.getElem_of_eq hts h3
  rw [genGrid_getElem] at h4
  have hfst : (l.get ⟨i, h2⟩).1 = t0 + 60 * i := by simpa [tsList] using h4
  have hsnd : valAt l (t0 + 60 * i) = (l.get ⟨i, h2⟩).2 :=
    valAt_grid_get l t0 n i hts hin h2
  rw [List.getElem_map, genGrid_getElem, hsnd]
  exact Prod.ext hfst.symm rfl

theorem resampleAsfreq_grid_id {l : List Row} {t0 n : Nat} (hts : tsList l = genGrid t0 n)
    (hal : t0 % 60 = 0) (hn : 1 ≤ n) : resampleAsfreq l = some l := by
  have hlen : l.length = n := length_of_tsGrid hts
  have hne : l ≠ [] := by
    intro h
    rw [h] at hlen
    simp at hlen
    omega
  have hgrid : gridOf l = genGrid t0 n := gridOf_of_tsGrid hts hal hn
  unfold resampleAsfreq
  rw [if_neg (by simpa [List.isEmpty_iff] using hne)]
  by_cases hfast : 3 ≤ l.length ∧ List.Chain' (fun a b => b = a + 60) (tsList l)
      ∧ l.length = (gridOf l).length
  · rw [if_pos hfast, hgrid, ← hts, tsList_eq, zip_fst_snd]
  · rw [if_neg hfast, if_pos (by rw [hts]; exact genGrid_nodup t0 n), hgrid,
      map_valAt_grid_eq hts]

theorem resampleAsfreq_aligned {l : List Row} (hne : l ≠ []) (hnd : (tsList l).Nodup)
    (hal : ∀ t ∈ tsList l, t % 60 = 0) :
    resampleAsfreq l = some ((gridOf l).map (fun t => (t, valAt l t))) := by
  unfold resampleAsfreq
  rw [if_neg (by simpa [List.isEmpty_iff] using hne)]
  by_cases hfast : 3 ≤ l.length ∧ List.Chain' (fun a b => b = a + 60) (tsList l)
      ∧ l.length = (gridOf l).length
  · rw [if_pos hfast]
    obtain ⟨-, hch, -⟩ := hfast
    have hts : tsList l = genGrid ((tsList l).headD 0) (tsList l).length := by
      have := chain_eq_genGrid (tsList l) hch
      exact this
    rw [length_tsList] at hts
    have hmem : (tsList l).headD 0 ∈ tsList l := by
      cases hl : tsList l with
      | nil =>
        exact absurd (by simpa [tsList, List.map_eq_nil_iff] using hl) hne
      | cons a as => simp [hl]
    have hal0 : (tsList l).headD 0 % 60 = 0 := hal _ hmem
    have hn : 1 ≤ l.length := by
      cases l with
      | nil => exact absurd rfl hne
      | cons a as => simp
    have hgrid : gridOf l = genGrid ((tsList l).headD 0) l.length :=
      gridOf_of_tsGrid hts hal0 hn
    rw [hgrid, map_valAt_grid_eq hts, ← hts, tsList_eq, zip_fst_snd]
  · rw [if_neg hfast, if_pos hnd]

theorem resampleAsfreq_sort_aligned {src : List Row} (hne : src ≠ [])
    (hnd : (tsList src).Nodup) (hal : ∀ t ∈ tsList src, t % 60 = 0) :
    resampleAsfreq (sortByKey Prod.fst src) =
      some ((gridOf src).map (fun t => (t, valAt src t))) := by
  have p := perm_sortByKey Prod.fst src
  have pts : List.Perm (tsList (sortByKey Prod.fst src)) (tsList src) := p.map Prod.fst
  have hne' : sortByKey Prod.fst src ≠ [] := by
    intro h
    rw [h] at p
    exact hne p.nil_eq.symm
  have hnd' : (tsList (sortByKey Prod.fst src)).Nodup := pts.nodup_iff.mpr hnd
  have hal' : ∀ t ∈ tsList (sortByKey Prod.fst src), t % 60 = 0 :=
    fun t ht => hal t (pts.mem_iff.mp ht)
  rw [resampleAsfreq_aligned hne' hnd' hal']
  have hgrid : gridOf (sortByKey Prod.fst src) = gridOf src := by
    unfold gridOf
    rw [minTs_perm pts, maxTs_perm pts]
  rw [hgrid]
  congr 1
  refine List.map_congr_left ?_
  intro t _
  rw [valAt_perm p hnd' t]

theorem gridFrom_tsList :
    ∀ (t : Nat) (l : List Row), gridFrom t l = true → tsList l = genGrid t l.length
  | _, [], _ => rfl
  | t, r :: l, h => by
    rw [gridFrom, Bool.and_eq_true, beq_iff_eq] at h
    obtain ⟨h1, h2⟩ := h
    show r.1 :: tsList l = genGrid t (l.length + 1)
    rw [genGrid_cons, h1, gridFrom_tsList (t + 60) l h2]

theorem isHourlyGrid_tsList {B : List Row} (h : isHourlyGrid B = true) :
    ∃ t0, tsList B = genGrid t0 B.length ∧ t0 % 60 = 0 ∧ 1 ≤ B.length := by
  cases B with
  | nil => simp [isHourlyGrid] at h
  | cons r rs =>
    rw [isHourlyGrid, Bool.and_eq_true, beq_iff_eq] at h
    exact ⟨r.1, gridFrom_tsList r.1 (r :: rs) h.2, h.1, by simp⟩

theorem mergeSeries_nil_grid {B : List Row} (h : isHourlyGrid B = true) :
    mergeSeries B [] = some B := by
  obtain ⟨t0, hts, hal, hn⟩ := isHourlyGrid_tsList h
  have hchain : List.Chain' (fun x y : Row => x.1 ≤ y.1) B := by
    have := genGrid_chain t0 B.length
    rw [← hts] at this
    have hmap := (List.chain'_map (Prod.fst : Row → Nat)).mp (by exact this)
    exact hmap.imp (fun a b hab => by omega)
  unfold mergeSeries
  rw [List.flatten_nil, List.append_nil, sortByKey_eq_of_chain _ _ hchain]
  exact resampleAsfreq_grid_id hts hal hn

/-! ### Bin-label range lemmas -/

theorem hourRange_mem {x lo hi : Nat} :
    x ∈ hourRange lo hi ↔ ∃ i, i < hi + 1 - lo ∧ x = (lo + i) * 60 := by
  simp only [hourRange, List.mem_map, List.mem_range]
  constructor
  · rintro ⟨i, hi, rfl⟩; exact ⟨i, hi, rfl⟩
  · rintro ⟨i, hi, rfl⟩; exact ⟨i, hi, rfl⟩

theorem hourRange_bounds {x lo hi : Nat} (h : x ∈ hourRange lo hi) :
    60 * lo ≤ x ∧ x ≤ 60 * hi ∧ x % 60 = 0 := by
  rcases hourRange_mem.mp h with ⟨i, hlt, rfl⟩
  omega

theorem hourRange_mem_of {t lo hi : Nat} (hmod : t % 60 = 0) (h1 : 60 * lo ≤ t)
    (h2 : t ≤ 60 * hi) : t ∈ hourRange lo hi := by
  refine hourRange_mem.mpr ⟨t / 60 - lo, by omega, by omega⟩

theorem gridOf_def (rows : List Row) :
    gridOf rows = hourRange (minTs (tsList rows) / 60) (maxTs (tsList rows) / 60) := rfl

theorem gridOf_nodup (l : List Row) : (gridOf l).Nodup := by
  unfold gridOf
  rw [hourRange_eq_genGrid]
  exact genGrid_nodup _ _

/-- `gridOf` for an index that is an hourly progression from `t0`, not
necessarily hour-aligned: the labels floor `t0` to the hour. -/
theorem gridOf_of_tsGrid_floor {l : List Row} {t0 n : Nat} (hts : tsList l = genGrid t0 n)
    (hn : 1 ≤ n) : gridOf l = genGrid (60 * (t0 / 60)) n := by
  unfold gridOf
  rw [hts, genGrid_min hn, genGrid_max hn, hourRange_eq_genGrid]
  have h3 : (t0 + 60 * (n - 1)) / 60 + 1 - t0 / 60 = n := by omega
  rw [h3]

/-- On the fast path the zip with the bin labels relabels each row's
timestamp to its hour floor. -/
theorem fast_zip_eq_mapFloor {l : List Row} {t0 n : Nat} (hts : tsList l = genGrid t0 n)
    (hn : 1 ≤ n) :
    (genGrid (60 * (t0 / 60)) n).zip (l.map Prod.snd) =
      l.map (fun s => (hourFloor s.1, s.2)) := by
  have hlen : l.length = n := length_of_tsGrid hts
  refine List.ext_getElem ?_ ?_
  · simp [genGrid_length, hlen]
  · intro i h1 h2
    have hin : i < n := by
      simpa [genGrid_length, hlen] using h1
    have h3 : i < (tsList l).length := by rw [length_tsList]; omega
    have h4 := List.getElem_of_eq hts h3
    rw [genGrid_getElem] at h4
    have hli : i < l.length := by omega
    have hfst : (l.get ⟨i, hli⟩).1 = t0 + 60 * i := by simpa [tsList] using h4
    rw [List.getElem_zip, List.getElem_map, List.getElem_map, genGrid_getElem]
    refine Prod.ext ?_ rfl
    show 60 * (t0 / 60) + 60 * i = hourFloor (l.get ⟨i, hli⟩).1
    rw [hfst, hourFloor]
    omega

/-! ### Per-day resample lemmas -/

theorem foldl_maxAcc_some : ∀ (l : List Nat) (a : Nat), ∃ b, l.foldl maxAcc (some a) = some b
  | [], a => ⟨a, rfl⟩
  | v :: l, a => by
    rw [List.foldl_cons]
    exact foldl_maxAcc_some l (Nat.max a v)

theorem rawBucketMax_none_iff (samples : List (Nat × Nat)) (t : Nat) :
    rawBucketMax samples t = none ↔ ∀ s ∈ samples, hourFloor s.1 ≠ t := by
  unfold rawBucketMax
  cases hf : samples.filter (fun s => hourFloor s.1 == t) with
  | nil =>
    simp only [hf, List.map_nil, List.foldl_nil]
    constructor
    · intro _ s hs hfl
      have := List.filter_eq_nil_iff.mp hf s hs
      simp [hfl] at this
    · intro _
      trivial
  | cons a as =>
    simp only [hf, List.map_cons, List.foldl_cons, maxAcc]
    constructor
    · intro h
      exfalso
      obtain ⟨b, hb⟩ := foldl_maxAcc_some (as.map Prod.snd) a.2
      rw [hb] at h
      cases h
    · intro h
      exfalso
      have ha : a ∈ samples.filter (fun s => hourFloor s.1 == t) := by
        rw [hf]
        exact List.mem_cons_self a as
      have hmm := List.mem_filter.mp ha
      exact h a hmm.1 (by simpa using hmm.2)

theorem mem_resampleMax {samples : List (Nat × Nat)} {r : Row} (hr : r ∈ resampleMax samples) :
    r.2 = rawBucketMax samples r.1 := by
  unfold resampleMax at hr
  by_cases he : samples.isEmpty
  · rw [if_pos he] at hr
    cases hr
  · rw [if_neg he] at hr
    rcases List.mem_map.mp hr with ⟨t, _, rfl⟩
    rfl

/-! ### Claim theorems -/

/-- C4: the most-recent-available-date computation returns the current UTC
date minus 2 days before 01:00 UTC and minus 1 day otherwise; concretely it
yields 2024-03-03 at 2024-03-05T00:30Z and 2024-03-04 at 2024-03-05T02:00Z,
and the returned date always lies strictly before the current date (hence
strictly in the past relative to the current moment). -/
theorem claim_c4_most_recent_date :
    get_most_recent_date ⟨civilDay 2024 3 5, 0, 30⟩ = civilDay 2024 3 3 ∧
    get_most_recent_date ⟨civilDay 2024 3 5, 2, 0⟩ = civilDay 2024 3 4 ∧
    ∀ now : UTCDateTime, get_most_recent_date now < now.day := by
  refine ⟨by decide, by decide, ?_⟩
  intro now
  unfold get_most_recent_date
  split <;> omega

/-- C5: the planned fetch list for `[a, b]` counts every date in the bounds
exactly once, is an ascending run of consecutive dates (no gaps, no
duplicates, nothing out of bounds), and is empty exactly when `b < a`. -/
theorem claim_c5_date_list :
    ∀ a b : Int,
      (∀ d : Int, (date_list a b).count d = 1 ↔ a ≤ d ∧ d ≤ b) ∧
      List.Chain' (fun x y => y = x + 1) (date_list a b) ∧
      (date_list a b = [] ↔ b < a) := by
  intro a b
  have hmem : ∀ d : Int, d ∈ date_list a b ↔ a ≤ d ∧ d ≤ b := by
    intro d
    simp only [date_list, List.mem_map, List.mem_range]
    constructor
    · rintro ⟨i, hi, rfl⟩
      omega
    · intro h
      exact ⟨(d - a).toNat, by omega, by omega⟩
  have hnodup : (date_list a b).Nodup := by
    refine (List.nodup_range _).map ?_
    intro i j hij
    dsimp only at hij
    omega
  refine ⟨?_, ?_, ?_⟩
  · intro d
    constructor
    · intro h
      exact (hmem d).mp (List.count_pos_iff.mp (by omega))
    · intro h
      exact List.count_eq_one_of_mem hnodup ((hmem d).mpr h)
  · refine List.chain'_iff_get.mpr ?_
    intro i hlt
    simp only [date_list, List.get_eq_getElem, List.getElem_map, List.getElem_range]
    push_cast
    omega
  · constructor
    · intro h
      by_contra hc
      push_neg at hc
      have hmm : a ∈ date_list a b := (hmem a).mpr ⟨le_refl a, by omega⟩
      rw [h] at hmm
      cases hmm
    · intro h
      simp only [date_list, List.map_eq_nil_iff, List.range_eq_nil]
      omega

/-- C2 counterexample: the claim says the per-date fetch never lets any
transport failure escape, but `requests.get` runs before the `try` block,
so a connection error or timeout raised there propagates to the caller. -/
theorem claim_c2_counterexample :
    get_data_for_date 0 TransportOutcome.connError = PyResult.raised := rfl

/-- C2 amended: once `requests.get` has returned a response (of any HTTP
status), every parse or shape failure of the body is caught by the
`try`/`except` and the function returns (`None` or a frame) instead of
raising; only exceptions of the transport call itself escape. -/
theorem claim_c2_no_raise_on_response :
    ∀ (d : Nat) (body : ParsedBody), ∃ result,
      get_data_for_date d (TransportOutcome.response body) = PyResult.ret result := by
  intro d body
  cases body with
  | table raws => exact ⟨some (get_data_rows d raws), rfl⟩
  | malformed => exact ⟨none, rfl⟩

/-- C1 counterexample: the merge does not keep the per-bucket maximum.
Samples 10 (at 00:00) and 15 (at 00:30) in the same hour merge to value 10,
the sample sitting exactly on the bin label, not to the maximum 15; and two
same-hour samples on the same timestamp make the merge raise (`none`)
rather than keep the maximum. -/
theorem claim_c1_counterexample :
    mergeSeries [((0 : Nat), some 10)] [[(30, some 15)]] = some [(0, some 10)] ∧
    mergeSeries [((0 : Nat), some 10)] [[(0, some 15)]] = none := by decide

/-- C3 counterexample: re-running the merge with a daily series already
covered by the baseline duplicates its timestamps, on which the `asfreq`
reindex raises (`none` here) instead of returning the byte-identical
series the claim promises. -/
theorem claim_c3_counterexample :
    mergeSeries [((0 : Nat), some 10)] [[(0, some 10)]] = none := by decide

/-- C10: a date whose file parses but holds no row for "mc.hypixel.net"
yields a successful empty frame (not `None`), and an empty daily series
contributes nothing to the merge. -/
theorem claim_c10_empty_series :
    ∀ (d : Nat) (raws : List RawRow), (∀ s ∈ raws, s.ip ≠ hypixelIdent) →
      get_data_for_date d (TransportOutcome.response (ParsedBody.table raws)) =
          PyResult.ret (some []) ∧
        ∀ (B : List Row) (dss : List (List Row)),
          mergeSeries B (dss ++ [[]]) = mergeSeries B dss := by
  intro d raws h
  constructor
  · show PyResult.ret (some (get_data_rows d raws)) = PyResult.ret (some [])
    have hfil : raws.filter (fun r => r.ip == hypixelIdent) = [] :=
      List.filter_eq_nil_iff.mpr (by intro a ha; simpa using h a ha)
    unfold get_data_rows
    rw [hfil]
    rfl
  · intro B dss
    unfold mergeSeries
    rw [List.flatten_append]
    simp

/-- C10 witness: a parsed table carrying only another server's rows. -/
theorem claim_c10_witness :
    get_data_for_date 0 (TransportOutcome.response (ParsedBody.table
        [⟨"play.example.net", 30, 5⟩])) = PyResult.ret (some []) :=
  (claim_c10_empty_series 0 [⟨"play.example.net", 30, 5⟩] (by decide)).1

/-- C6: every row of a successfully fetched daily series carries a
timestamp whose (truncated) date equals the requested date; spill-over
buckets are filtered out on source line 80. -/
theorem claim_c6_date_filter :
    ∀ (d : Nat) (raws : List RawRow) (out : List Row),
      get_data_for_date d (TransportOutcome.response (ParsedBody.table raws)) =
        PyResult.ret (some out) →
      ∀ r ∈ out, dateOf r.1 = d := by
  intro d raws out h r hr
  have h' : PyResult.ret (α := Option (List Row)) (some (get_data_rows d raws)) =
      PyResult.ret (some out) := h
  injection h' with h''
  have hout : get_data_rows d raws = out := Option.some.inj h''
  rw [← hout] at hr
  unfold get_data_rows at hr
  have := (List.mem_filter.mp hr).2
  simpa using this

/-- C6 witness: a concrete fetch with one in-date sample. -/
theorem claim_c6_witness : dateOf (((0 : Nat), some 10) : Row).1 = 0 :=
  claim_c6_date_filter 0 [⟨hypixelIdent, 30, 10⟩] [(0, some 10)] (by decide)
    (0, some 10) (by decide)

/-- C8: in most_recent mode the fetched dates are exactly the half-open
interval (latest recorded date, cutoff]; when the latest recorded date
equals the cutoff the plan is empty and merging nothing re-produces the
baseline unchanged (for a well-formed hourly-grid baseline). -/
theorem claim_c8_incremental_range :
    ∀ (B : List Row) (end_d : Int),
      (∀ d : Int, d ∈ most_recent_date_list (latestDate B) end_d ↔
        (latestDate B : Int) < d ∧ d ≤ end_d) ∧
      ((latestDate B : Int) = end_d →
        most_recent_date_list (latestDate B) end_d = [] ∧
        (isHourlyGrid B = true → mergeSeries B [] = some B)) := by
  intro B end_d
  constructor
  · intro d
    simp only [most_recent_date_list, List.mem_map, List.mem_range]
    constructor
    · rintro ⟨i, hi, rfl⟩
      omega
    · intro h
      exact ⟨(d - latestDate B - 1).toNat, by omega, by omega⟩
  · intro heq
    constructor
    · simp only [most_recent_date_list]
      rw [show (end_d - (latestDate B : Int)).toNat = 0 by omega]
      rfl
    · exact mergeSeries_nil_grid

/-- C8 witness: a one-row baseline whose latest date equals the cutoff. -/
theorem claim_c8_witness :
    most_recent_date_list (latestDate [((0 : Nat), some 3)]) 0 = [] ∧
    mergeSeries [((0 : Nat), some 3)] [] = some [((0 : Nat), some 3)] := by
  have h := (claim_c8_incremental_range [((0 : Nat), some 3)] 0).2 (by decide)
  exact ⟨h.1, h.2 (by decide)⟩

/-- C9 counterexample: raw samples at 00:30 and 02:30 of the requested date
produce a daily series that DOES contain the no-data hour 01:00 as a row
with a null value — the hourly `max` resample emits every bin between the
first and last sample, so interior gap hours are present-with-null, not
absent. -/
theorem claim_c9_counterexample :
    get_data_for_date 0 (TransportOutcome.response (ParsedBody.table
        [⟨hypixelIdent, 30, 10⟩, ⟨hypixelIdent, 150, 20⟩])) =
      PyResult.ret (some [(0, some 10), (60, none), (120, some 20)]) := by decide

/-- C9 amended: a row of a successfully fetched daily series is null
exactly when the source reported no sample for the target server in that
row's hour; hours inside the fetched span with no data are present with a
null value (hours outside the span are absent). -/
theorem claim_c9_null_iff :
    ∀ (d : Nat) (raws : List RawRow) (out : List Row),
      get_data_for_date d (TransportOutcome.response (ParsedBody.table raws)) =
        PyResult.ret (some out) →
      ∀ r ∈ out, (r.2 = none ↔
        ∀ s ∈ raws, s.ip = hypixelIdent → hourFloor s.timestamp ≠ r.1) := by
  intro d raws out h r hr
  have h' : PyResult.ret (α := Option (List Row)) (some (get_data_rows d raws)) =
      PyResult.ret (some out) := h
  injection h' with h''
  have hout : get_data_rows d raws = out := Option.some.inj h''
  rw [← hout] at hr
  unfold get_data_rows at hr
  have hr2 := (List.mem_filter.mp hr).1
  have hval := mem_resampleMax hr2
  rw [hval, rawBucketMax_none_iff]
  constructor
  · intro hs raw hraw hip hfl
    refine hs (raw.timestamp, raw.playerCount) ?_ hfl
    refine ((perm_sortByKey Prod.fst _).mem_iff).mpr ?_
    refine List.mem_map.mpr ⟨raw, ?_, rfl⟩
    exact List.mem_filter.mpr ⟨hraw, by simpa using hip⟩
  · intro hraws s hs hfl
    have hs' := ((perm_sortByKey Prod.fst _).mem_iff).mp hs
    rcases List.mem_map.mp hs' with ⟨raw, hrawmem, rfl⟩
    have hfil := List.mem_filter.mp hrawmem
    exact hraws raw hfil.1 (by simpa using hfil.2) hfl

/-- C9 witness: the 00:00 row of the fetched series holds data, matching a
reported sample in that hour. -/
theorem claim_c9_witness :
    (((0 : Nat), some 10) : Row).2 = none ↔
      ∀ s ∈ [RawRow.mk hypixelIdent 30 10, RawRow.mk hypixelIdent 150 20],
        s.ip = hypixelIdent → hourFloor s.timestamp ≠ 0 :=
  claim_c9_null_iff 0 [RawRow.mk hypixelIdent 30 10, RawRow.mk hypixelIdent 150 20]
    [(0, some 10), (60, none), (120, some 20)] (by decide) ((0 : Nat), some 10) (by decide)

/-- For hour-aligned, duplicate-free rows the reindex lookup at an aligned
label agrees with the per-bucket maximum: each bucket holds at most one row,
so its maximum is that row's value. -/
theorem valAt_eq_bucketMax {src : List Row} {t : Nat} (hnd : (tsList src).Nodup)
    (hal : ∀ u ∈ tsList src, u % 60 = 0) (ht : t % 60 = 0) :
    valAt src t = bucketMax src t := by
  unfold bucketMax
  have hfeq : src.filter (fun r => hourFloor r.1 == t) = src.filter (fun r => r.1 == t) := by
    refine List.filter_congr ?_
    intro x hx
    have hx1 : x.1 % 60 = 0 := hal x.1 (List.mem_map_of_mem Prod.fst hx)
    have hfe : hourFloor x.1 = x.1 := by unfold hourFloor; omega
    rw [hfe]
  rw [hfeq]
  have hlen := filter_key_len_le_one hnd t
  cases hf : src.filter (fun r => r.1 == t) with
  | nil =>
    unfold valAt
    rw [hf]
    rfl
  | cons a as =>
    rw [hf] at hlen
    have has : as = [] := by
      cases as with
      | nil => rfl
      | cons b bs => simp at hlen
    subst has
    unfold valAt
    rw [hf]
    cases ha2 : a.2 with
    | none => simp [List.filterMap_cons, ha2]
    | some v => simp [List.filterMap_cons, ha2, maxAcc]

/-- C1 amended: on the inputs the program actually feeds the merge —
hour-aligned rows with pairwise distinct timestamps — the merged series is
the full hourly grid over the combined range and every bucket carries the
maximum of the (at most one) contributing samples in that hour, with empty
buckets marked "no data".  (For off-hour or duplicated samples the merge
does not keep the maximum: see the counterexample.) -/
theorem claim_c1_bucket :
    ∀ (B : List Row) (ds : List (List Row)),
      B ++ ds.flatten ≠ [] →
      (tsList (B ++ ds.flatten)).Nodup →
      (∀ t ∈ tsList (B ++ ds.flatten), t % 60 = 0) →
      ∃ out, mergeSeries B ds = some out ∧
        tsList out = gridOf (B ++ ds.flatten) ∧
        ∀ r ∈ out, r.2 = bucketMax (B ++ ds.flatten) r.1 := by
  intro B ds hne hnd hal
  have h := resampleAsfreq_sort_aligned hne hnd hal
  refine ⟨_, h, tsList_map_pair _ _, ?_⟩
  intro r hr
  rcases List.mem_map.mp hr with ⟨t, ht, rfl⟩
  have htm : t % 60 = 0 := by
    unfold gridOf at ht
    exact (hourRange_bounds ht).2.2
  exact valAt_eq_bucketMax hnd hal htm

/-- C1 witness: two hour-aligned samples in distinct hours. -/
theorem claim_c1_witness :
    ∃ out, mergeSeries [((0 : Nat), some 10)] [[(60, some 15)]] = some out ∧
      tsList out = gridOf ([((0 : Nat), some 10)] ++ [[(60, some 15)]].flatten) ∧
      ∀ r ∈ out, r.2 = bucketMax ([((0 : Nat), some 10)] ++ [[(60, some 15)]].flatten) r.1 :=
  claim_c1_bucket [((0 : Nat), some 10)] [[(60, some 15)]] (by decide) (by decide) (by decide)

/-- C7: whatever series the merge produces is a gap-free hourly grid:
its timestamps are consecutive hour-aligned hours (one row per hour over
the spanned range); a row whose hour holds no source sample is null, and a
non-null row's value is the value of a source sample of that very hour —
"no data" is never invented from, or coerced to, a number. -/
theorem claim_c7_grid :
    ∀ (B : List Row) (ds : List (List Row)) (out : List Row),
      mergeSeries B ds = some out →
      (∃ g0, g0 % 60 = 0 ∧ tsList out = genGrid g0 out.length) ∧
      (∀ r ∈ out, (∀ s ∈ B ++ ds.flatten, hourFloor s.1 ≠ r.1) → r.2 = none) ∧
      (∀ r ∈ out, ∀ v, r.2 = some v →
        ∃ s ∈ B ++ ds.flatten, hourFloor s.1 = r.1 ∧ s.2 = some v) := by
  intro B ds out h
  have p := perm_sortByKey Prod.fst (B ++ ds.flatten)
  unfold mergeSeries resampleAsfreq at h
  by_cases hemp : (sortByKey Prod.fst (B ++ ds.flatten)).isEmpty
  · rw [if_pos hemp] at h
    have hout : ([] : List Row) = out := Option.some.inj h
    subst hout
    refine ⟨⟨0, by omega, by simp [tsList, genGrid]⟩, ?_, ?_⟩
    · intro r hr; cases hr
    · intro r hr; cases hr
  · rw [if_neg hemp] at h
    by_cases hfast : 3 ≤ (sortByKey Prod.fst (B ++ ds.flatten)).length ∧
        List.Chain' (fun a b => b = a + 60) (tsList (sortByKey Prod.fst (B ++ ds.flatten))) ∧
        (sortByKey Prod.fst (B ++ ds.flatten)).length =
          (gridOf (sortByKey Prod.fst (B ++ ds.flatten))).length
    · rw [if_pos hfast] at h
      obtain ⟨h3, hch, -⟩ := hfast
      have hts : tsList (sortByKey Prod.fst (B ++ ds.flatten)) =
          genGrid ((tsList (sortByKey Prod.fst (B ++ ds.flatten))).headD 0)
            (sortByKey Prod.fst (B ++ ds.flatten)).length := by
        have hc := chain_eq_genGrid _ hch
        rwa [length_tsList] at hc
      have hn : 1 ≤ (sortByKey Prod.fst (B ++ ds.flatten)).length := by omega
      rw [gridOf_of_tsGrid_floor hts hn, fast_zip_eq_mapFloor hts hn] at h
      have hout : (sortByKey Prod.fst (B ++ ds.flatten)).map (fun s => (hourFloor s.1, s.2)) =
          out := Option.some.inj h
      have houtlen : out.length = (sortByKey Prod.fst (B ++ ds.flatten)).length := by
        rw [← hout, List.length_map]
      refine ⟨?_, ?_, ?_⟩
      · refine ⟨60 * (((tsList (sortByKey Prod.fst (B ++ ds.flatten))).headD 0) / 60),
          by omega, ?_⟩
        have hzip := fast_zip_eq_mapFloor hts hn
        rw [houtlen, ← hout, tsList_eq, ← hzip,
          List.map_fst_zip _ _ (by simp [genGrid_length])]
      · intro r hr hno
        exfalso
        rw [← hout] at hr
        rcases List.mem_map.mp hr with ⟨s, hs, rfl⟩
        exact hno s (p.mem_iff.mp hs) rfl
      · intro r hr v hv
        rw [← hout] at hr
        rcases List.mem_map.mp hr with ⟨s, hs, rfl⟩
        exact ⟨s, p.mem_iff.mp hs, rfl, hv⟩
    · rw [if_neg hfast] at h
      by_cases hnd : (tsList (sortByKey Prod.fst (B ++ ds.flatten))).Nodup
      · rw [if_pos hnd] at h
        have hout : (gridOf (sortByKey Prod.fst (B ++ ds.flatten))).map
            (fun t => (t, valAt (sortByKey Prod.fst (B ++ ds.flatten)) t)) = out :=
          Option.some.inj h
        have houtlen : out.length = (gridOf (sortByKey Prod.fst (B ++ ds.flatten))).length := by
          rw [← hout, List.length_map]
        refine ⟨?_, ?_, ?_⟩
        · refine ⟨60 * (minTs (tsList (sortByKey Prod.fst (B ++ ds.flatten))) / 60),
            by omega, ?_⟩
          rw [houtlen, ← hout, tsList_map_pair]
          unfold gridOf
          rw [hourRange_eq_genGrid, genGrid_length]
        · intro r hr hno
          rw [← hout] at hr
          rcases List.mem_map.mp hr with ⟨t, ht, rfl⟩
          have htm : t % 60 = 0 := by
            unfold gridOf at ht
            exact (hourRange_bounds ht).2.2
          by_cases hv : valAt (sortByKey Prod.fst (B ++ ds.flatten)) t = none
          · exact hv
          · exfalso
            rcases Option.ne_none_iff_exists'.mp hv with ⟨v, hvv⟩
            rcases valAt_some hvv with ⟨s, hsl, hst, -⟩
            refine hno s (p.mem_iff.mp hsl) ?_
            show hourFloor s.1 = t
            rw [hst]
            unfold hourFloor
            omega
        · intro r hr v hv
          rw [← hout] at hr
          rcases List.mem_map.mp hr with ⟨t, ht, rfl⟩
          have htm : t % 60 = 0 := by
            unfold gridOf at ht
            exact (hourRange_bounds ht).2.2
          rcases valAt_some hv with ⟨s, hsl, hst, hs2⟩
          refine ⟨s, p.mem_iff.mp hsl, ?_, hs2⟩
          show hourFloor s.1 = t
          rw [hst]
          unfold hourFloor
          omega
      · rw [if_neg hnd] at h
        cases h

/-- C7 witness: merging 00:00 and 03:00 samples yields the 4-row grid with
the two interior hours null. -/
theorem claim_c7_witness :
    ∃ g0, g0 % 60 = 0 ∧
      tsList [((0 : Nat), some 7), (60, none), (120, none), (180, some 9)] =
        genGrid g0 ([((0 : Nat), some 7), (60, none), (120, none), (180, some 9)] : List Row).length :=
  (claim_c7_grid [((0 : Nat), some 7)] [[(180, some 9)]]
    [(0, some 7), (60, none), (120, none), (180, some 9)] (by decide)).1

/-- Core of the amended idempotence claim: for hour-aligned, duplicate-free
input whose second batch `D2` lies strictly after the whole span of `L`,
merging `L ++ D2` in one step equals first gridding `L` and then merging the
grid with `D2`. -/
theorem merge_append_assoc_core (L D2 : List Row)
    (hal : ∀ t ∈ tsList (L ++ D2), t % 60 = 0)
    (hnd : (tsList (L ++ D2)).Nodup)
    (hneL : L ≠ [])
    (hgt : ∀ t2 ∈ tsList D2, ∀ t1 ∈ tsList L, t1 < t2) :
    resampleAsfreq (sortByKey Prod.fst (L ++ D2)) =
      resampleAsfreq (sortByKey Prod.fst
        (((gridOf L).map (fun t => (t, valAt L t))) ++ D2)) := by
  have hts_app : tsList (L ++ D2) = tsList L ++ tsList D2 := tsList_append L D2
  rw [hts_app] at hal hnd
  obtain ⟨hndL, hndD2, hdisj⟩ := List.nodup_append.mp hnd
  have halL : ∀ t ∈ tsList L, t % 60 = 0 := fun t ht => hal t (List.mem_append_left _ ht)
  have halD2 : ∀ t ∈ tsList D2, t % 60 = 0 := fun t ht => hal t (List.mem_append_right _ ht)
  have hneTs : tsList L ≠ [] := by
    intro hcon
    exact hneL (List.map_eq_nil_iff.mp (by rwa [tsList_eq] at hcon))
  have ht0m : minTs (tsList L) % 60 = 0 := halL _ (minTs_mem hneTs)
  have ht1m : maxTs (tsList L) % 60 = 0 := halL _ (maxTs_mem hneTs)
  have ht01 : minTs (tsList L) ≤ maxTs (tsList L) := minTs_le (maxTs_mem hneTs)
  have hgt1 : ∀ x ∈ tsList D2, maxTs (tsList L) < x :=
    fun x hx => hgt x hx _ (maxTs_mem hneTs)
  have hgrid_lb : ∀ x ∈ gridOf L, minTs (tsList L) ≤ x := by
    intro x hx
    have := hourRange_bounds hx
    omega
  have hgrid_ub : ∀ x ∈ gridOf L, x ≤ maxTs (tsList L) := by
    intro x hx
    have := hourRange_bounds hx
    omega
  have ht0mem : minTs (tsList L) ∈ gridOf L :=
    hourRange_mem_of ht0m (by omega) (by omega)
  have ht1mem : maxTs (tsList L) ∈ gridOf L :=
    hourRange_mem_of ht1m (by omega) (by omega)
  have hGts : tsList ((gridOf L).map (fun t => (t, valAt L t))) = gridOf L :=
    tsList_map_pair _ _
  have hGDts : tsList (((gridOf L).map (fun t => (t, valAt L t))) ++ D2) =
      gridOf L ++ tsList D2 := by
    rw [tsList_append, hGts]
  have hndGD : (tsList (((gridOf L).map (fun t => (t, valAt L t))) ++ D2)).Nodup := by
    rw [hGDts]
    refine List.nodup_append.mpr ⟨gridOf_nodup L, hndD2, ?_⟩
    intro x hx hx2
    have h1 := hgrid_ub x hx
    have h2 := hgt1 x hx2
    omega
  have halGD : ∀ t ∈ tsList (((gridOf L).map (fun t => (t, valAt L t))) ++ D2), t % 60 = 0 := by
    rw [hGDts]
    intro t ht
    rcases List.mem_append.mp ht with h | h
    · exact (hourRange_bounds h).2.2
    · exact halD2 t h
  have hneS : L ++ D2 ≠ [] := by
    intro h
    exact hneL (List.append_eq_nil.mp h).1
  have hneGD : ((gridOf L).map (fun t => (t, valAt L t))) ++ D2 ≠ [] := by
    intro h
    have := (List.append_eq_nil.mp h).1
    rw [List.map_eq_nil_iff] at this
    exact (List.ne_nil_of_mem ht0mem) this
  have hminS : minTs (tsList L ++ tsList D2) = minTs (tsList L) := by
    refine minTs_eq_of (List.mem_append_left _ (minTs_mem hneTs)) ?_
    intro x hx
    rcases List.mem_append.mp hx with h | h
    · exact minTs_le h
    · have := hgt1 x h
      omega
  have hminGD : minTs (gridOf L ++ tsList D2) = minTs (tsList L) := by
    refine minTs_eq_of (List.mem_append_left _ ht0mem) ?_
    intro x hx
    rcases List.mem_append.mp hx with h | h
    · exact hgrid_lb x h
    · have := hgt1 x h
      omega
  have hmaxeq : maxTs (tsList L ++ tsList D2) = maxTs (gridOf L ++ tsList D2) := by
    cases hD2 : tsList D2 with
    | nil =>
      rw [List.append_nil, List.append_nil]
      exact (maxTs_eq_of ht1mem hgrid_ub).symm
    | cons u us =>
      rw [← hD2]
      have hne2 : tsList D2 ≠ [] := by rw [hD2]; simp
      have hM := maxTs_mem hne2
      have h1 : maxTs (tsList L ++ tsList D2) = maxTs (tsList D2) := by
        refine maxTs_eq_of (List.mem_append_right _ hM) ?_
        intro x hx
        rcases List.mem_append.mp hx with h | h
        · have := le_maxTs h
          have := hgt1 _ hM
          omega
        · exact le_maxTs h
      have h2 : maxTs (gridOf L ++ tsList D2) = maxTs (tsList D2) := by
        refine maxTs_eq_of (List.mem_append_right _ hM) ?_
        intro x hx
        rcases List.mem_append.mp hx with h | h
        · have := hgrid_ub x h
          have := hgt1 _ hM
          omega
        · exact le_maxTs h
      rw [h1, h2]
  have hgrideq : gridOf (L ++ D2) =
      gridOf (((gridOf L).map (fun t => (t, valAt L t))) ++ D2) := by
    rw [gridOf_def (L ++ D2), gridOf_def (((gridOf L).map (fun t => (t, valAt L t))) ++ D2),
      hts_app, hGDts, hminS, hminGD, hmaxeq]
  have hvals : ∀ t ∈ gridOf (L ++ D2),
      valAt (L ++ D2) t = valAt (((gridOf L).map (fun t => (t, valAt L t))) ++ D2) t := by
    intro t htS
    have hb : 60 * (minTs (tsList (L ++ D2)) / 60) ≤ t ∧
        t ≤ 60 * (maxTs (tsList (L ++ D2)) / 60) ∧ t % 60 = 0 := hourRange_bounds htS
    have htm : t % 60 = 0 := hb.2.2
    have htlb : minTs (tsList L) ≤ t := by
      have := hb.1
      rw [hts_app, hminS] at this
      omega
    by_cases hle : t ≤ maxTs (tsList L)
    · have hD2ne : ∀ r ∈ D2, r.1 ≠ t := by
        intro r hr
        have := hgt1 r.1 (List.mem_map_of_mem Prod.fst hr)
        omega
      rw [valAt_append_right_nil hD2ne, valAt_append_right_nil hD2ne]
      have heq1 : 60 * (minTs (tsList L) / 60) = minTs (tsList L) := by omega
      have heq2 : 60 * (maxTs (tsList L) / 60) = maxTs (tsList L) := by omega
      have htg : t ∈ gridOf L :=
        @hourRange_mem_of t (minTs (tsList L) / 60) (maxTs (tsList L) / 60) htm
          (by rw [heq1]; exact htlb) (by rw [heq2]; exact hle)
      rw [valAt_map_grid (gridOf_nodup L) htg]
    · push_neg at hle
      have hLne : ∀ r ∈ L, r.1 ≠ t := by
        intro r hr
        have hmm : r.1 ∈ tsList L := List.mem_map_of_mem Prod.fst hr
        have := le_maxTs hmm
        omega
      have hGne : ∀ r ∈ (gridOf L).map (fun t => (t, valAt L t)), r.1 ≠ t := by
        intro r hr
        have hr1 : r.1 ∈ gridOf L := by
          have := List.mem_map_of_mem Prod.fst hr
          rwa [← tsList_eq, hGts] at this
        have := hgrid_ub _ hr1
        omega
      rw [valAt_append_left_nil hLne, valAt_append_left_nil hGne]
  rw [resampleAsfreq_sort_aligned hneS (by rwa [hts_app]) (by rw [hts_app]; exact hal),
    resampleAsfreq_sort_aligned hneGD hndGD halGD, ← hgrideq]
  congr 1
  exact List.map_congr_left (fun t ht => by rw [hvals t ht])

/-- C3 amended: the two-step/one-step merge agreement holds for the inputs
the program can actually produce without crashing: hour-aligned series with
pairwise distinct timestamps where `D2` lies strictly after the span of
`B ++ D1` (e.g. strictly later dates).  For overlapping date sets the claim
fails: duplicate timestamps make the merge raise (see the counterexample),
so re-ingestion is not idempotent. -/
theorem claim_c3_assoc :
    ∀ (B D1 D2 : List Row),
      (∀ t ∈ tsList (B ++ D1 ++ D2), t % 60 = 0) →
      (tsList (B ++ D1 ++ D2)).Nodup →
      B ++ D1 ≠ [] →
      (∀ t2 ∈ tsList D2, ∀ t1 ∈ tsList (B ++ D1), t1 < t2) →
      ∃ G, mergeSeries B [D1] = some G ∧
        mergeSeries B [D1, D2] = mergeSeries G [D2] := by
  intro B D1 D2 hal hnd hneL hgt
  have hndL : (tsList (B ++ D1)).Nodup := by
    rw [tsList_append] at hnd
    exact (List.nodup_append.mp hnd).1
  have halL : ∀ t ∈ tsList (B ++ D1), t % 60 = 0 := by
    intro t ht
    refine hal t ?_
    rw [tsList_append]
    exact List.mem_append_left _ ht
  refine ⟨(gridOf (B ++ D1)).map (fun t => (t, valAt (B ++ D1) t)), ?_, ?_⟩
  · show resampleAsfreq (sortByKey Prod.fst (B ++ [D1].flatten)) = _
    rw [show B ++ [D1].flatten = B ++ D1 by simp]
    exact resampleAsfreq_sort_aligned hneL hndL halL
  · show resampleAsfreq (sortByKey Prod.fst (B ++ [D1, D2].flatten)) =
      resampleAsfreq (sortByKey Prod.fst
        (((gridOf (B ++ D1)).map (fun t => (t, valAt (B ++ D1) t))) ++ [D2].flatten))
    rw [show B ++ [D1, D2].flatten = B ++ D1 ++ D2 by simp,
      show ([D2] : List (List Row)).flatten = D2 by simp]
    exact merge_append_assoc_core (B ++ D1) D2 hal hnd hneL hgt

/-- C3 witness: a baseline and two strictly later one-hour daily series. -/
theorem claim_c3_witness :
    ∃ G, mergeSeries [((0 : Nat), some 1)] [[(60, some 2)]] = some G ∧
      mergeSeries [((0 : Nat), some 1)] [[(60, some 2)], [(120, some 3)]] =
        mergeSeries G [[(120, some 3)]] :=
  claim_c3_assoc [((0 : Nat), some 1)] [(60, some 2)] [(120, some 3)]
    (by decide) (by decide) (by decide) (by decide)

end HypIngest
